import Mathlib

/-!
Shallow embedding of the incremental GitHub-statistics cache of the
`jp-zuniga` profile-updater (files `src/updater/src/{utils,repos,cache,loc,calc_commits}.py`).

Modelling conventions:
* Python `datetime` values are UTC epoch integers; the ISO-8601 serialization
  performed by `to_iso_z` is modelled as decimal rendering of that integer
  (`from_iso_z` is the matching parse, `none` standing for the `ValueError`
  `datetime.fromisoformat` raises on a malformed string).
* Python dicts are association lists in insertion order; `dictGet`/`dictSet`
  model `d.get(k)` and `d[k] = v`.
* The keyed HMAC-SHA-256 digests of `hash_repo`/`hash_branch` are external
  crypto-library calls; the model keeps the keyed pre-image (`HASH_KEY` with
  `name`, resp. `repo_hash:branch_name`) as the identifier, which preserves
  the injectivity the cache relies on.
* Paginated remote results are a list of yielded items together with the
  `GithubException` message, if any, that the iterator raises after them.
* Raised Python exceptions are the `Except` monad; `PyError` distinguishes the
  exception classes the code treats differently (`GithubException`,
  `ValueError`, `KeyError`, `OSError`, `CacheError`).
* In-place mutation of the `branches` dict inside `calc_repo_data` is explicit
  state passing: the function returns the final state of that dict as the
  first component even when it raises; the caller's alias to the dict sees
  exactly that value.
-/

/-- A GitHub platform account as attached to a commit or the authenticated
user (`commit.author`, resp. the `AuthenticatedUser`, in PyGithub). -/
structure NamedUser where
  id : Int
  login : String
deriving Repr, DecidableEq

/-- Git-level author/committer metadata (`commit.commit.author` and
`commit.commit.committer` in PyGithub); either field may be absent. -/
structure GitActor where
  email : Option String
  date : Option Int
deriving Repr, DecidableEq

/-- The git commit object `commit.commit`. -/
structure GitData where
  author : Option GitActor
  committer : Option GitActor
deriving Repr, DecidableEq

/-- One commit as seen through the listing API, with its line stats
(`commit.stats.additions` / `commit.stats.deletions`). -/
structure Commit where
  sha : String
  author : Option NamedUser
  commit : Option GitData
  additions : Int
  deletions : Int
deriving Repr, DecidableEq

/-- `d.get(k)` on a Python dict modelled as an insertion-ordered
association list (keys are unique, so first match is the entry). -/
def dictGet : List (String × α) → String → Option α
  | [], _ => none
  | p :: rest, k => if p.1 == k then some p.2 else dictGet rest k

/-- `d[k] = v` on a Python dict: replace in place when the key exists,
append otherwise. -/
def dictSet : List (String × α) → String → α → List (String × α)
  | [], k, v => [(k, v)]
  | p :: rest, k, v => if p.1 == k then (k, v) :: rest else p :: dictSet rest k v

/-- The `HASH_KEY` secret read from the environment in `consts.py`,
modelled as a fixed run constant. -/
def HASH_KEY : String := "K"

/-- `utils.hash_repo`: keyed digest of the repository name.  The HMAC digest
is kept as its injective keyed pre-image (see module docstring). -/
def hash_repo (name : String) : String :=
  HASH_KEY ++ "|" ++ name

/-- `utils.hash_branch`: keyed digest of `f"{repo_hash}:{branch_name}"`. -/
def hash_branch (branch_name : String) (repo_hash : String) : String :=
  HASH_KEY ++ "|" ++ repo_hash ++ ":" ++ branch_name

/-- `utils.to_iso_z`: serialize a datetime, defaulting to the current UTC
time (`now`) when called with `None`. -/
def to_iso_z (dt : Option Int) (now : Int) : String :=
  toString (dt.getD now)

/-- `utils.from_iso_z`: parse an ISO string back to a datetime (a decimal
string under this embedding's serialization); `none` models the
`ValueError` raised on a malformed string. -/
def from_iso_z (s : String) : Option Int :=
  if s.data.isEmpty || s.data.any (fun ch => !ch.isDigit) then
    none
  else
    some (Int.ofNat (s.data.foldl (fun n ch => 10 * n + (ch.toNat - 48)) 0))

/-- Python `str.lower` as used on the (ASCII) email strings of this system,
modelled character-wise; the standard library's Unicode lowering is an
external primitive. -/
def py_lower (s : String) : String :=
  ⟨s.data.map Char.toLower⟩

/-- `utils.is_user_commit`: authorship test by account id, then committer
email (lower-cased, against the verified set), then login. -/
def is_user_commit (user : NamedUser) (emails : List String) (commit : Commit) : Bool :=
  if (commit.author.map (fun a => a.id == user.id)).getD false then
    true
  else
    let emailHit : Bool :=
      match commit.commit with
      | some gd =>
        match gd.author with
        | some ga =>
          let commit_email : String := (ga.email.map py_lower).getD ""
          emails.contains commit_email
        | none => false
      | none => false
    if emailHit then
      true
    else
      (commit.author.map (fun a => a.login == user.login)).getD false

/-- Exception classes the code distinguishes. -/
inductive PyError where
  | github (msg : String)
  | value (msg : String)
  | key (msg : String)
  | os (msg : String)
  | cache (msg : String)
deriving Repr, DecidableEq

/-- A paginated remote stream: the items the iterator yields, then the
`GithubException` message, if any, that fetching the next page raises. -/
structure Paginated (α : Type) where
  items : List α
  err : Option String

/-- One remote branch: its name, head SHA, the head commit's committer date
(`branch.commit.commit.committer.date` through the guarded `getattr` chain,
`none` when unresolvable), and its history query
(`repo.get_commits(sha=name, since?)`). -/
structure RBranch where
  name : String
  head_sha : String
  head_date : Option Int
  history : Option Int → Paginated Commit

/-- One remote repository: its name and its branch listing. -/
structure RemoteRepo where
  name : String
  branches : Paginated RBranch

/-- A per-branch checkpoint as stored in the cache JSON: the `"head"` and
`"last_seen"` keys, either possibly absent in a parsed file. -/
structure BranchCP where
  head : Option String
  last_seen : Option String
deriving Repr, DecidableEq

/-- The `"branches"` sub-dict of a cached repository entry. -/
abbrev BranchData := List (String × BranchCP)

/-- One cached repository entry: the five JSON keys of `cache.update_cache`,
each possibly absent in a parsed file. -/
structure CachedRepo where
  branches : Option BranchData
  additions : Option Int
  deletions : Option Int
  user_commits : Option Int
  commits : Option Int
deriving Repr, DecidableEq

/-- The whole persisted cache document, keyed by repository hash. -/
abbrev CacheDict := List (String × CachedRepo)

/-- Result of the inner commit loop of `repos.calc_repo_data`:
the four running deltas, the cross-branch `processed` SHA set, and whether
the loop ended with `break` (previous head reached). -/
structure WalkResult where
  additions : Int
  deletions : Int
  user_commits : Int
  commits : Int
  processed : List String
  broke : Bool
deriving Repr, DecidableEq

/-- The inner `for commit in repo.get_commits(...)` loop of
`repos.calc_repo_data`: break at the previous cached head, skip SHAs already
processed in this reconciliation call, otherwise count the commit and, when
`is_user_commit` holds, its line stats. -/
def walk_commits (user : NamedUser) (emails : List String) (prev_head : String) :
    List Commit → Int → Int → Int → Int → List String → WalkResult
  | [], a, d, u, c, proc => ⟨a, d, u, c, proc, false⟩
  | cm :: rest, a, d, u, c, proc =>
    if cm.sha == prev_head then
      ⟨a, d, u, c, proc, true⟩
    else if proc.contains cm.sha then
      walk_commits user emails prev_head rest a d u c proc
    else if is_user_commit user emails cm then
      walk_commits user emails prev_head rest (a + cm.additions) (d + cm.deletions)
        (u + 1) (c + 1) (cm.sha :: proc)
    else
      walk_commits user emails prev_head rest a d u (c + 1) (cm.sha :: proc)

/-- The `for branch in repo.get_branches()` loop of `repos.calc_repo_data`,
threading the in-place-mutated `branches` dict, the four deltas and the
`processed` set.  Returns the final state of the `branches` dict (visible to
the caller through aliasing even on a raise) alongside the outcome. -/
def calc_branches (user : NamedUser) (emails : List String) (repo_hash : String) (now : Int) :
    List RBranch → BranchData → Int → Int → Int → Int → List String →
    BranchData × Except PyError (Int × Int × Int × Int)
  | [], bd, a, d, u, c, _ => (bd, .ok (a, d, u, c))
  | br :: rest, bd, a, d, u, c, proc =>
    let hashed_branch := hash_branch br.name repo_hash
    let prev_head : String := ((dictGet bd hashed_branch).bind (fun cp => cp.head)).getD ""
    let last_seen : String := ((dictGet bd hashed_branch).bind (fun cp => cp.last_seen)).getD ""
    if prev_head == br.head_sha then
      calc_branches user emails repo_hash now rest bd a d u c proc
    else
      match (if last_seen == "" then some none else (from_iso_z last_seen).map some) with
      | none => (bd, .error (.value ("Invalid isoformat string: " ++ last_seen)))
      | some since =>
        let page := br.history since
        let w := walk_commits user emails prev_head page.items a d u c proc
        if w.broke = false ∧ page.err.isSome then
          (bd, .error (.github (page.err.getD "")))
        else
          let bd' := dictSet bd hashed_branch
            ⟨some br.head_sha, some (to_iso_z br.head_date now)⟩
          calc_branches user emails repo_hash now rest bd'
            w.additions w.deletions w.user_commits w.commits w.processed

/-- `repos.calc_repo_data`: incremental per-repository reconciliation.
Returns the final state of the caller's `branches` dict (first component:
in Python the caller's object, mutated in place) and either the raised
exception or the `RepoData` tuple, whose last component is that same dict. -/
def calc_repo_data (user : NamedUser) (emails : List String) (repo : RemoteRepo)
    (repo_hash : String) (branches : BranchData) (now : Int) :
    BranchData × Except PyError (Int × Int × Int × Int × BranchData) :=
  match calc_branches user emails repo_hash now repo.branches.items branches 0 0 0 0 [] with
  | (bd, .error e) => (bd, .error e)
  | (bd, .ok (a, d, u, c)) =>
    match repo.branches.err with
    | some m => (bd, .error (.github m))
    | none => (bd, .ok (a, d, u, c, bd))

/-- State of the persisted cache file when `cache.get_cache` opens it. -/
inductive FileState where
  | missing
  | unreadable (msg : String)
  | invalid (raw : String)
  | valid (snapshot : CacheDict)

/-- `cache.get_cache`: read the cache file; a `FileNotFoundError` (missing
file) or `JSONDecodeError` (invalid contents) yields the empty dict; any
other `OSError` is not caught and propagates. -/
def get_cache : FileState → Except PyError CacheDict
  | .missing => .ok []
  | .invalid _ => .ok []
  | .valid snapshot => .ok snapshot
  | .unreadable m => .error (.os m)

/-- Outcome of the underlying `json.dump` to the cache file. -/
inductive WriteOutcome where
  | success
  | osError (msg : String)
deriving Repr, DecidableEq

/-- `cache.write_cache`: serialize the snapshot, wrapping an `OSError` from
the file write into the dedicated `CacheError`. -/
def write_cache (data : CacheDict) (w : WriteOutcome) : Except PyError Unit :=
  match w with
  | .success => .ok ()
  | .osError m => .error (.cache ("Failed to write cache: " ++ m))

/-- The cached-repo entry used when a repository hash is absent from the
snapshot (`data.get(repo_hash, {})`). -/
def emptyRepo : CachedRepo := ⟨none, none, none, none, none⟩

/-- The `for repo in get_affiliated_repos(user)` loop of
`cache.update_cache`: per repository, reconcile, catching only
`GithubException` (deltas zeroed; `new_branches = prev_branches`, which in
Python aliases the dict `calc_repo_data` mutated in place, so it holds the
reconciler's final branch map), then merge deltas into the previous totals. -/
def update_repos (user : NamedUser) (emails : List String) (now : Int) :
    List RemoteRepo → CacheDict → Except PyError CacheDict
  | [], data => .ok data
  | repo :: rest, data =>
    let repo_hash := hash_repo repo.name
    let prev : CachedRepo := (dictGet data repo_hash).getD emptyRepo
    let prev_branches : BranchData := prev.branches.getD []
    match calc_repo_data user emails repo repo_hash prev_branches now with
    | (_, .ok (adds_d, dels_d, user_commits_d, commits_d, new_branches)) =>
      update_repos user emails now rest (dictSet data repo_hash
        ⟨some new_branches,
         some (prev.additions.getD 0 + adds_d),
         some (prev.deletions.getD 0 + dels_d),
         some (prev.user_commits.getD 0 + user_commits_d),
         some (prev.commits.getD 0 + commits_d)⟩)
    | (mutated_branches, .error (.github _)) =>
      update_repos user emails now rest (dictSet data repo_hash
        ⟨some mutated_branches,
         some (prev.additions.getD 0),
         some (prev.deletions.getD 0),
         some (prev.user_commits.getD 0),
         some (prev.commits.getD 0)⟩)
    | (_, .error e) => .error e

/-- The environment one run of `cache.update_cache` interacts with: the
cache file it reads, the affiliated-repository listing it iterates, and the
outcome of its final file write. -/
structure World where
  cache_file : FileState
  repos : Paginated RemoteRepo
  write_outcome : WriteOutcome

/-- `cache.update_cache`: read the snapshot, update every affiliated
repository, then write the snapshot back and return it. -/
def update_cache (user : NamedUser) (emails : List String) (w : World) (now : Int) :
    Except PyError CacheDict :=
  match get_cache w.cache_file with
  | .error e => .error e
  | .ok data =>
    match update_repos user emails now w.repos.items data with
    | .error e => .error e
    | .ok data =>
      match w.repos.err with
      | some m => .error (.github m)
      | none =>
        match write_cache data w.write_outcome with
        | .error e => .error e
        | .ok _ => .ok data

/-- One step of the `sum(int(repo["user_commits"]) ...)` generator in
`calc_commits.get_total_commits`: indexing a dict without the key raises
`KeyError`, which aborts the sum. -/
def commit_step (acc : Except PyError Int) (p : String × CachedRepo) : Except PyError Int :=
  match acc with
  | .error e => .error e
  | .ok s =>
    match p.2.user_commits with
    | some n => .ok (s + n)
    | none => .error (.key "user_commits")

/-- `calc_commits.get_total_commits`: sum `int(repo["user_commits"])` over
the snapshot; a missing `"user_commits"` key raises `KeyError`. -/
def get_total_commits (cached_data : CacheDict) : Except PyError Int :=
  cached_data.foldl commit_step (.ok 0)

/-- One iteration of the accumulation loop in `loc.get_total_loc`. -/
def loc_step (s : Int × Int) (p : String × CachedRepo) : Int × Int :=
  (s.1 + p.2.additions.getD 0, s.2 + p.2.deletions.getD 0)

/-- `loc.get_total_loc`: sum `repo.get("additions", 0)` and
`repo.get("deletions", 0)` over the snapshot, returning
`(adds - dels, adds, dels)`. -/
def get_total_loc (cached_data : CacheDict) : Int × Int × Int :=
  let acc := cached_data.foldl loc_step (0, 0)
  (acc.1 - acc.2, acc.1, acc.2)

theorem dictGet_dictSet_self (m : List (String × α)) (k : String) (v : α) :
    dictGet (dictSet m k v) k = some v := by
  induction m with
  | nil => simp [dictGet, dictSet]
  | cons p rest ih =>
    by_cases hp : p.1 = k
    · simp [dictGet, dictSet, hp]
    · simpa [dictGet, dictSet, hp] using ih

theorem dictGet_dictSet_ne (m : List (String × α)) (k k' : String) (v : α)
    (h : k' ≠ k) : dictGet (dictSet m k v) k' = dictGet m k' := by
  have hk : ¬k = k' := fun hh => h hh.symm
  induction m with
  | nil => simp [dictGet, dictSet, hk]
  | cons p rest ih =>
    by_cases hp : p.1 = k
    · simp [dictGet, dictSet, hp, hk]
    · by_cases hpk : p.1 = k'
      · simp [dictGet, dictSet, hp, hpk, h]
      · simpa [dictGet, dictSet, hp, hpk] using ih

/-- The tracked user of the concrete test scenarios. -/
def userA : NamedUser := ⟨1, "me"⟩

/-- Verified-email set of the concrete test scenarios. -/
def emailsA : List String := ["me@x.com"]

/-- Git metadata for commits authored by the tracked user. -/
def gitMe : Option GitData :=
  some ⟨some ⟨some "me@x.com", some 7⟩, some ⟨some "me@x.com", some 7⟩⟩

/-- A commit authored by the tracked user. -/
def mkCommit (sha : String) (adds dels : Int) : Commit :=
  ⟨sha, some userA, gitMe, adds, dels⟩

/-- Branch `b1` of the failure scenario: head advanced from `h0` to `h1`,
history walk succeeds. -/
def branchB1 : RBranch :=
  ⟨"b1", "h1", some 7, fun _ => ⟨[mkCommit "h1" 5 1, mkCommit "h0" 3 0], none⟩⟩

/-- Branch `b2` of the failure scenario: its history stream raises a
`GithubException` before yielding anything. -/
def branchB2 : RBranch := ⟨"b2", "h2", none, fun _ => ⟨[], some "boom"⟩⟩

/-- The repository of the failure scenario: `b1` reconciles, `b2` raises. -/
def repoR : RemoteRepo := ⟨"R", ⟨[branchB1, branchB2], none⟩⟩

/-- The cached checkpoint of `b1` before the failing run. -/
def cp0 : BranchCP := ⟨some "h0", some "5"⟩

/-- The cached entry of repository `R` before the failing run. -/
def entry0 : CachedRepo :=
  ⟨some [(hash_branch "b1" (hash_repo "R"), cp0)], some 10, some 2, some 3, some 4⟩

/-- The snapshot before the failing run. -/
def data0 : CacheDict := [(hash_repo "R", entry0)]

/-- The environment of the failing run: readable cache, one repository,
successful final write. -/
def world0 : World := ⟨.valid data0, ⟨[repoR], none⟩, .success⟩

/-- C1: evaluating the orchestrator at the failing input.  Reconciling `R`
raises (branch `b2`'s history stream fails) after branch `b1` was already
processed.  The run completes and the entry keeps its prior totals
`(10, 2, 3, 4)`, but — contrary to the claim — `b1`'s checkpoint has
advanced from head `h0` to `h1`, so the commits between `h0` and `h1`
(5 additions, 1 deletion) are dropped forever: the next run skips `b1` by
head equality while the totals never received their deltas. -/
theorem C1_checkpoint_clobbered_on_failure :
    update_cache userA emailsA world0 99 =
      .ok [(hash_repo "R",
        ⟨some [(hash_branch "b1" (hash_repo "R"), ⟨some "h1", some "7"⟩)],
         some 10, some 2, some 3, some 4⟩)] ∧
    dictGet data0 (hash_repo "R") = some entry0 ∧
    entry0.branches = some [(hash_branch "b1" (hash_repo "R"), ⟨some "h0", some "5"⟩)] ∧
    (⟨some "h1", some "7"⟩ : BranchCP) ≠ ⟨some "h0", some "5"⟩ :=
  ⟨rfl, rfl, rfl, by decide⟩

/-- C6: `get_cache` returns the empty snapshot for a missing file and for
unparseable contents (never raising), and the parsed snapshot for a valid
file. -/
theorem C6_get_cache_missing_or_corrupt :
    get_cache .missing = .ok [] ∧
    (∀ raw : String, get_cache (.invalid raw) = .ok []) ∧
    (∀ snapshot : CacheDict, get_cache (.valid snapshot) = .ok snapshot) :=
  ⟨rfl, fun _ => rfl, fun _ => rfl⟩

/-- C7: `write_cache` raises the dedicated `CacheError` exactly when the
underlying file write fails with an `OSError`, and succeeds otherwise. -/
theorem C7_write_cache_error_iff :
    ∀ (data : CacheDict) (w : WriteOutcome),
      (∃ m, write_cache data w = .error (.cache m)) ↔ (∃ m, w = .osError m) := by
  intro data w
  cases w with
  | success => simp [write_cache]
  | osError m => simp [write_cache]

/-- Branch of the C5 scenario: head advanced `h0 → h1` but the head
commit's committer date cannot be resolved (`head_date = none`). -/
def branchC5 : RBranch :=
  ⟨"b", "h1", none, fun _ => ⟨[mkCommit "h1" 5 1, mkCommit "h0" 3 0], none⟩⟩

/-- Repository of the C5 scenario. -/
def repoC5 : RemoteRepo := ⟨"R5", ⟨[branchC5], none⟩⟩

/-- Cached branch data of the C5 scenario: checkpoint head `h0`,
last-seen `"5"`. -/
def bd5 : BranchData := [(hash_branch "b" (hash_repo "R5"), ⟨some "h0", some "5"⟩)]

/-- C5 counterexample: when the walked branch's head timestamp cannot be
resolved, the recorded `last_seen` is the serialized current time
(`to_iso_z` defaults to `datetime.now(tz=UTC)`), not the previous cached
value: the prior `"5"` is replaced by `"99"` (the run's current time). -/
theorem C5_last_seen_not_kept :
    (calc_repo_data userA emailsA repoC5 (hash_repo "R5") bd5 99).2 =
      .ok (5, 1, 1, 1, [(hash_branch "b" (hash_repo "R5"), ⟨some "h1", some "99"⟩)]) ∧
    dictGet bd5 (hash_branch "b" (hash_repo "R5")) = some ⟨some "h0", some "5"⟩ ∧
    ((some "99" : Option String) ≠ some "5") :=
  ⟨rfl, rfl, by decide⟩

/-- C9 counterexample: a snapshot entry without the `"user_commits"` key
makes `get_total_commits` raise `KeyError` instead of treating the missing
numeric field as zero. -/
theorem C9_missing_field_raises :
    get_total_commits [("r", ⟨none, some 3, some 1, none, some 7⟩)] =
      .error (.key "user_commits") := rfl

theorem foldl_commit_step (d : CacheDict) :
    ∀ s : Int, (∀ p ∈ d, (p.2.user_commits).isSome) →
      d.foldl commit_step (.ok s) =
        .ok (s + (d.map (fun p => p.2.user_commits.getD 0)).sum) := by
  induction d with
  | nil => intro s _; simp
  | cons p rest ih =>
    intro s h
    obtain ⟨n, hn⟩ := Option.isSome_iff_exists.mp (h p (by simp))
    have hrest : ∀ q ∈ rest, (q.2.user_commits).isSome := fun q hq => h q (by simp [hq])
    simp [List.foldl_cons, commit_step, hn, ih (s + n) hrest, add_assoc]

theorem foldl_loc_step (d : CacheDict) :
    ∀ s : Int × Int, d.foldl loc_step s =
      (s.1 + (d.map (fun p => p.2.additions.getD 0)).sum,
       s.2 + (d.map (fun p => p.2.deletions.getD 0)).sum) := by
  induction d with
  | nil => intro s; simp
  | cons p rest ih => intro s; simp [List.foldl_cons, loc_step, ih, add_assoc]

/-- C9 amended: the aggregators are pure reducers — `get_total_loc` sums
additions and deletions over the snapshot with missing fields defaulting
to zero and returns `(adds - dels, adds, dels)`, and `get_total_commits`
returns the sum of the per-repository `user_commits` fields whenever every
entry carries that field (a missing `user_commits` raises `KeyError`
instead of defaulting, see the counterexample). -/
theorem C9_aggregators (d : CacheDict)
    (h : ∀ p ∈ d, (p.2.user_commits).isSome) :
    get_total_commits d = .ok ((d.map (fun p => p.2.user_commits.getD 0)).sum) ∧
    get_total_loc d =
      ((d.map (fun p => p.2.additions.getD 0)).sum -
         (d.map (fun p => p.2.deletions.getD 0)).sum,
       (d.map (fun p => p.2.additions.getD 0)).sum,
       (d.map (fun p => p.2.deletions.getD 0)).sum) := by
  constructor
  · simpa [get_total_commits] using foldl_commit_step d 0 h
  · have hl := foldl_loc_step d (0, 0)
    simp only [get_total_loc, hl]
    simp

/-- Witness for C9 on a one-entry snapshot with all fields present. -/
theorem C9_aggregators_witness :
    (∀ p ∈ ([("r", ⟨none, some 3, some 1, some 2, some 7⟩)] : CacheDict),
       (p.2.user_commits).isSome) ∧
    (get_total_commits [("r", ⟨none, some 3, some 1, some 2, some 7⟩)] =
       .ok ((([("r", ⟨none, some 3, some 1, some 2, some 7⟩)] : CacheDict).map
         (fun p => p.2.user_commits.getD 0)).sum) ∧
     get_total_loc [("r", ⟨none, some 3, some 1, some 2, some 7⟩)] =
       ((([("r", ⟨none, some 3, some 1, some 2, some 7⟩)] : CacheDict).map
           (fun p => p.2.additions.getD 0)).sum -
          (([("r", ⟨none, some 3, some 1, some 2, some 7⟩)] : CacheDict).map
            (fun p => p.2.deletions.getD 0)).sum,
        (([("r", ⟨none, some 3, some 1, some 2, some 7⟩)] : CacheDict).map
          (fun p => p.2.additions.getD 0)).sum,
        (([("r", ⟨none, some 3, some 1, some 2, some 7⟩)] : CacheDict).map
          (fun p => p.2.deletions.getD 0)).sum)) :=
  ⟨by decide, C9_aggregators [("r", ⟨none, some 3, some 1, some 2, some 7⟩)] (by decide)⟩

/-- C10: the reconciler's returned branch map is the very state it threaded
(in Python, the same dict object the caller passed in, mutated in place),
and on a `GithubException` the orchestrator's entry for the repository
carries the reconciler's final (partially updated) branch state even though
the call's result was discarded — while the totals stay at their previous
values. -/
theorem C10_inplace_branch_state :
    (∀ (user : NamedUser) (emails : List String) (repo : RemoteRepo) (repo_hash : String)
       (branches : BranchData) (now a d u c : Int) (bd2 : BranchData),
       (calc_repo_data user emails repo repo_hash branches now).2 = .ok (a, d, u, c, bd2) →
       bd2 = (calc_repo_data user emails repo repo_hash branches now).1) ∧
    (∀ (user : NamedUser) (emails : List String) (now : Int) (repo : RemoteRepo)
       (rest : List RemoteRepo) (data : CacheDict) (m : String),
       (calc_repo_data user emails repo (hash_repo repo.name)
           (((dictGet data (hash_repo repo.name)).getD emptyRepo).branches.getD []) now).2 =
         .error (.github m) →
       update_repos user emails now (repo :: rest) data =
         update_repos user emails now rest (dictSet data (hash_repo repo.name)
           ⟨some (calc_repo_data user emails repo (hash_repo repo.name)
               (((dictGet data (hash_repo repo.name)).getD emptyRepo).branches.getD []) now).1,
            some (((dictGet data (hash_repo repo.name)).getD emptyRepo).additions.getD 0),
            some (((dictGet data (hash_repo repo.name)).getD emptyRepo).deletions.getD 0),
            some (((dictGet data (hash_repo repo.name)).getD emptyRepo).user_commits.getD 0),
            some (((dictGet data (hash_repo repo.name)).getD emptyRepo).commits.getD 0)⟩)) := by
  constructor
  · intro user emails repo repo_hash branches now a d u c bd2 h
    rcases h1 : calc_branches user emails repo_hash now repo.branches.items branches 0 0 0 0 []
      with ⟨bd, res⟩
    cases res with
    | error e => simp [calc_repo_data, h1] at h
    | ok q =>
      obtain ⟨a', d', u', c'⟩ := q
      cases herr : repo.branches.err with
      | some m => simp [calc_repo_data, h1, herr] at h
      | none =>
        simp only [calc_repo_data, h1, herr] at h ⊢
        exact (Except.ok.inj h |> fun hh => by
          injection hh with h1' hrest
          injection hrest with h2' hrest
          injection hrest with h3' hrest
          injection hrest with h4' h5'
          exact h5'.symm)
  · intro user emails now repo rest data m h
    rcases h1 : calc_repo_data user emails repo (hash_repo repo.name)
        (((dictGet data (hash_repo repo.name)).getD emptyRepo).branches.getD []) now
      with ⟨mutB, res⟩
    rw [h1] at h
    simp only at h
    subst h
    simp only [update_repos, h1]

/-- Witness for C10: the ok case on the C5 scenario repository, and the
`GithubException` case on the failure-scenario repository. -/
theorem C10_inplace_branch_state_witness :
    ((calc_repo_data userA emailsA repoC5 (hash_repo "R5") bd5 99).2 =
       .ok (5, 1, 1, 1, [(hash_branch "b" (hash_repo "R5"), ⟨some "h1", some "99"⟩)]) ∧
     [(hash_branch "b" (hash_repo "R5"), (⟨some "h1", some "99"⟩ : BranchCP))] =
       (calc_repo_data userA emailsA repoC5 (hash_repo "R5") bd5 99).1) ∧
    ((calc_repo_data userA emailsA repoR (hash_repo repoR.name)
        (((dictGet data0 (hash_repo repoR.name)).getD emptyRepo).branches.getD []) 99).2 =
       .error (.github "boom") ∧
     update_repos userA emailsA 99 [repoR] data0 =
       update_repos userA emailsA 99 [] (dictSet data0 (hash_repo repoR.name)
         ⟨some (calc_repo_data userA emailsA repoR (hash_repo repoR.name)
             (((dictGet data0 (hash_repo repoR.name)).getD emptyRepo).branches.getD []) 99).1,
          some (((dictGet data0 (hash_repo repoR.name)).getD emptyRepo).additions.getD 0),
          some (((dictGet data0 (hash_repo repoR.name)).getD emptyRepo).deletions.getD 0),
          some (((dictGet data0 (hash_repo repoR.name)).getD emptyRepo).user_commits.getD 0),
          some (((dictGet data0 (hash_repo repoR.name)).getD emptyRepo).commits.getD 0)⟩)) :=
  ⟨⟨rfl, C10_inplace_branch_state.1 userA emailsA repoC5 (hash_repo "R5") bd5 99 5 1 1 1 _ rfl⟩,
   ⟨rfl, C10_inplace_branch_state.2 userA emailsA 99 repoR [] data0 "boom" rfl⟩⟩

theorem contains_lower_iff (emails : List String) (hlow : ∀ v ∈ emails, (py_lower v) = v)
    (e : String) :
    emails.contains (py_lower e) = true ↔ ∃ v ∈ emails, (py_lower e) = (py_lower v) := by
  rw [List.elem_iff]
  constructor
  · intro hmem
    exact ⟨(py_lower e), hmem, (hlow _ hmem).symm⟩
  · rintro ⟨v, hv, heq⟩
    rw [heq, hlow v hv]
    exact hv

/-- C8: characterization of `is_user_commit` over a verified-email set that
is lower-case normalized and has no empty entry (as `get_verified_emails`
produces): the result is true exactly when the author account id matches
the user's id, or the committer email case-insensitively matches a verified
email (platform account id not required), or the author login matches the
user's login; in particular it is false when author metadata is entirely
absent, and the function is total — absent fields never raise. -/
theorem C8_is_user_commit_characterization (user : NamedUser) (emails : List String)
    (cm : Commit) (hlow : ∀ v ∈ emails, (py_lower v) = v) (hne : "" ∉ emails) :
    (is_user_commit user emails cm = true ↔
      ((∃ a, cm.author = some a ∧ a.id = user.id) ∨
       (∃ gd ga e, cm.commit = some gd ∧ gd.author = some ga ∧ ga.email = some e ∧
          ∃ v ∈ emails, (py_lower e) = (py_lower v)) ∨
       (∃ a, cm.author = some a ∧ a.login = user.login))) ∧
    (cm.author = none ∧ cm.commit = none → is_user_commit user emails cm = false) := by
  constructor
  · rcases cm with ⟨sha, author, cmt, adds, dels⟩
    rcases cmt with _ | ⟨gauthor, gcommitter⟩
    · cases author with
      | none => simp [is_user_commit]
      | some a =>
        by_cases hid : a.id = user.id
        · simp [is_user_commit, hid]
        · by_cases hlog : a.login = user.login
          · simp [is_user_commit, hid, hlog]
          · simp [is_user_commit, hid, hlog]
    · rcases gauthor with _ | ⟨gemail, gdate⟩
      · cases author with
        | none => simp [is_user_commit]
        | some a =>
          by_cases hid : a.id = user.id
          · simp [is_user_commit, hid]
          · by_cases hlog : a.login = user.login
            · simp [is_user_commit, hid, hlog]
            · simp [is_user_commit, hid, hlog]
      · rcases gemail with _ | e
        · cases author with
          | none => simp [is_user_commit, hne]
          | some a =>
            by_cases hid : a.id = user.id
            · simp [is_user_commit, hid]
            · by_cases hlog : a.login = user.login
              · simp [is_user_commit, hid, hlog, hne]
              · simp [is_user_commit, hid, hlog, hne]
        · have hiff := contains_lower_iff emails hlow e
          by_cases hc : emails.contains (py_lower e) = true
          · have hex := hiff.mp hc
            have hmem : (py_lower e) ∈ emails := List.elem_iff.mp hc
            cases author with
            | none => simp [is_user_commit, hmem, hex]
            | some a =>
              by_cases hid : a.id = user.id
              · simp [is_user_commit, hid]
              · simp [is_user_commit, hid, hmem, hex]
          · have hnex := (not_congr hiff).mp hc
            have hmem : (py_lower e) ∉ emails := fun hm => hc (List.elem_iff.mpr hm)
            cases author with
            | none => simp [is_user_commit, hmem, hnex]
            | some a =>
              by_cases hid : a.id = user.id
              · simp [is_user_commit, hid]
              · by_cases hlog : a.login = user.login
                · simp [is_user_commit, hid, hlog, hmem]
                · simp [is_user_commit, hid, hlog, hmem, hnex]
  · rintro ⟨h1, h2⟩
    simp [is_user_commit, h1, h2]

/-- Witness for C8: a commit with no platform account id whose committer
email matches a verified email case-insensitively. -/
theorem C8_is_user_commit_witness :
    (∀ v ∈ ["me@x.com"], (py_lower v) = v) ∧ "" ∉ ["me@x.com"] ∧
    ((is_user_commit userA ["me@x.com"]
        ⟨"s", none, some ⟨some ⟨some "Me@X.com", none⟩, none⟩, 1, 1⟩ = true ↔
      ((∃ a, (none : Option NamedUser) = some a ∧ a.id = userA.id) ∨
       (∃ gd ga e, (some ⟨some ⟨some "Me@X.com", none⟩, none⟩ : Option GitData) = some gd ∧
          gd.author = some ga ∧ ga.email = some e ∧
          ∃ v ∈ ["me@x.com"], (py_lower e) = (py_lower v)) ∨
       (∃ a, (none : Option NamedUser) = some a ∧ a.login = userA.login))) ∧
     ((none : Option NamedUser) = none ∧
        (some ⟨some ⟨some "Me@X.com", none⟩, none⟩ : Option GitData) = none →
      is_user_commit userA ["me@x.com"]
        ⟨"s", none, some ⟨some ⟨some "Me@X.com", none⟩, none⟩, 1, 1⟩ = false)) :=
  ⟨by decide, by decide,
   C8_is_user_commit_characterization userA ["me@x.com"]
     ⟨"s", none, some ⟨some ⟨some "Me@X.com", none⟩, none⟩, 1, 1⟩ (by decide) (by decide)⟩

/-- C3: walked newest-first, the commit loop stops at the first commit whose
SHA equals the cached head, counting neither it nor anything after it: on a
history `pre ++ [cached head] ++ post` where the cached head does not occur
in `pre`, the resulting deltas and processed set are exactly those of
walking only the `k = pre.length` new commits (only the `break` flag
differs). -/
theorem C3_walk_stops_at_cached_head (user : NamedUser) (emails : List String)
    (prev_head : String) (pre post : List Commit) (cm : Commit)
    (a d u c : Int) (proc : List String)
    (hcm : cm.sha = prev_head) (hpre : ∀ x ∈ pre, x.sha ≠ prev_head) :
    walk_commits user emails prev_head (pre ++ cm :: post) a d u c proc =
      { walk_commits user emails prev_head pre a d u c proc with broke := true } := by
  induction pre generalizing a d u c proc with
  | nil => simp [walk_commits, hcm]
  | cons x rest ih =>
    have hx : ¬x.sha = prev_head := hpre x (by simp)
    have hrest : ∀ y ∈ rest, y.sha ≠ prev_head := fun y hy => hpre y (by simp [hy])
    by_cases hdup : x.sha ∈ proc
    · simpa [walk_commits, hx, hdup] using ih _ _ _ _ _ hrest
    · by_cases huser : is_user_commit user emails x = true
      · simpa [walk_commits, hx, hdup, huser] using ih _ _ _ _ _ hrest
      · rw [Bool.not_eq_true] at huser
        simpa [walk_commits, hx, hdup, huser] using ih _ _ _ _ _ hrest

/-- Witness for C3: a branch advanced by two commits (`c2`, `c1`) over the
cached head `h0`; the walk over the full history equals the walk over just
the two new commits. -/
theorem C3_walk_stops_witness :
    ((mkCommit "h0" 3 0).sha = "h0") ∧
    (∀ x ∈ [mkCommit "c2" 4 1, mkCommit "c1" 2 2], x.sha ≠ "h0") ∧
    walk_commits userA emailsA "h0"
        ([mkCommit "c2" 4 1, mkCommit "c1" 2 2] ++ mkCommit "h0" 3 0 :: [mkCommit "old" 9 9])
        0 0 0 0 [] =
      { walk_commits userA emailsA "h0" [mkCommit "c2" 4 1, mkCommit "c1" 2 2] 0 0 0 0 []
          with broke := true } :=
  ⟨rfl, by decide,
   C3_walk_stops_at_cached_head userA emailsA "h0"
     [mkCommit "c2" 4 1, mkCommit "c1" 2 2] [mkCommit "old" 9 9] (mkCommit "h0" 3 0)
     0 0 0 0 [] rfl (by decide)⟩

theorem calc_branches_all_skipped (user : NamedUser) (emails : List String)
    (repo_hash : String) (now : Int) (brs : List RBranch) (bd : BranchData)
    (a d u c : Int) (proc : List String)
    (h : ∀ br ∈ brs,
       ((dictGet bd (hash_branch br.name repo_hash)).bind (fun cp => cp.head)).getD ""
         = br.head_sha) :
    calc_branches user emails repo_hash now brs bd a d u c proc = (bd, .ok (a, d, u, c)) := by
  induction brs with
  | nil => simp [calc_branches]
  | cons br rest ih =>
    have hbr := h br (by simp)
    have hrest : ∀ b ∈ rest, _ := fun b hb => h b (by simp [hb])
    simpa [calc_branches, hbr] using ih hrest

theorem calc_branches_preserves (user : NamedUser) (emails : List String)
    (repo_hash : String) (now : Int) (brs : List RBranch) (k : String) :
    ∀ (bd : BranchData) (a d u c : Int) (proc : List String),
      k ∉ brs.map (fun b => hash_branch b.name repo_hash) →
      dictGet (calc_branches user emails repo_hash now brs bd a d u c proc).1 k
        = dictGet bd k := by
  induction brs with
  | nil => intro bd a d u c proc _; simp [calc_branches]
  | cons br rest ih =>
    intro bd a d u c proc hk
    have hkbr : k ≠ hash_branch br.name repo_hash := fun hkk => hk (by simp [hkk])
    have hkrest : k ∉ rest.map (fun b => hash_branch b.name repo_hash) :=
      fun hkk => hk (by simp [hkk])
    simp only [calc_branches]
    split
    · exact ih bd a d u c proc hkrest
    · split
      · rfl
      · split
        · rfl
        · rw [ih _ _ _ _ _ _ hkrest, dictGet_dictSet_ne _ _ _ _ hkbr]

theorem calc_branches_heads (user : NamedUser) (emails : List String)
    (repo_hash : String) (now : Int) (brs : List RBranch) :
    ∀ (bd : BranchData) (a d u c : Int) (proc : List String) (bd' : BranchData)
      (r : Int × Int × Int × Int),
      (brs.map (fun b => hash_branch b.name repo_hash)).Nodup →
      calc_branches user emails repo_hash now brs bd a d u c proc = (bd', .ok r) →
      ∀ br ∈ brs,
        ((dictGet bd' (hash_branch br.name repo_hash)).bind (fun cp => cp.head)).getD ""
          = br.head_sha := by
  induction brs with
  | nil =>
    intro bd a d u c proc bd' r _ _ br hbr
    simp at hbr
  | cons b0 rest ih =>
    intro bd a d u c proc bd' r hnd hrun br hbr
    have hnd0 : hash_branch b0.name repo_hash ∉ rest.map (fun b => hash_branch b.name repo_hash) :=
      (List.nodup_cons.mp hnd).1
    have hndr : (rest.map (fun b => hash_branch b.name repo_hash)).Nodup :=
      (List.nodup_cons.mp hnd).2
    simp only [calc_branches] at hrun
    split at hrun
    · rename_i hskip
      rcases List.mem_cons.mp hbr with hbr | hbr
      · subst hbr
        have hbd' := congrArg Prod.fst hrun
        dsimp only at hbd'
        rw [← hbd',
          calc_branches_preserves user emails repo_hash now rest
            (hash_branch br.name repo_hash) _ _ _ _ _ _ hnd0]
        exact eq_of_beq hskip
      · exact ih bd a d u c proc bd' r hndr hrun br hbr
    · split at hrun
      · simp at hrun
      · split at hrun
        · simp at hrun
        · rcases List.mem_cons.mp hbr with hbr | hbr
          · subst hbr
            have hbd' := congrArg Prod.fst hrun
            dsimp only at hbd'
            rw [← hbd',
              calc_branches_preserves user emails repo_hash now rest
                (hash_branch br.name repo_hash) _ _ _ _ _ _ hnd0,
              dictGet_dictSet_self]
            rfl
          · exact ih _ _ _ _ _ _ bd' r hndr hrun br hbr

/-- C4: (1) when every branch's current head equals its cached checkpoint
head, reconciliation returns all-zero deltas and exactly the input branch
map — and since the statement holds for arbitrary `history` fields, no
commit history is consulted; (2) consequently, after any successful
reconciliation (distinct branch keys), immediately reconciling again yields
zero deltas and the same unchanged branch map. -/
theorem C4_unmoved_zero_deltas :
    (∀ (user : NamedUser) (emails : List String) (repo : RemoteRepo) (repo_hash : String)
       (bd : BranchData) (now : Int),
       repo.branches.err = none →
       (∀ br ∈ repo.branches.items,
          ((dictGet bd (hash_branch br.name repo_hash)).bind (fun cp => cp.head)).getD ""
            = br.head_sha) →
       calc_repo_data user emails repo repo_hash bd now = (bd, .ok (0, 0, 0, 0, bd))) ∧
    (∀ (user : NamedUser) (emails : List String) (repo : RemoteRepo) (repo_hash : String)
       (bd : BranchData) (now now2 a d u c : Int) (bd1 : BranchData),
       (repo.branches.items.map (fun b => hash_branch b.name repo_hash)).Nodup →
       calc_repo_data user emails repo repo_hash bd now = (bd1, .ok (a, d, u, c, bd1)) →
       calc_repo_data user emails repo repo_hash bd1 now2 = (bd1, .ok (0, 0, 0, 0, bd1))) := by
  constructor
  · intro user emails repo repo_hash bd now herr hmoved
    have h1 := calc_branches_all_skipped user emails repo_hash now
      repo.branches.items bd 0 0 0 0 [] hmoved
    simp [calc_repo_data, h1, herr]
  · intro user emails repo repo_hash bd now now2 a d u c bd1 hnd hrun
    rcases h1 : calc_branches user emails repo_hash now repo.branches.items bd 0 0 0 0 []
      with ⟨bd0, res⟩
    cases res with
    | error e => simp [calc_repo_data, h1] at hrun
    | ok q =>
      obtain ⟨a', d', u', c'⟩ := q
      cases herr : repo.branches.err with
      | some m => simp [calc_repo_data, h1, herr] at hrun
      | none =>
        simp only [calc_repo_data, h1, herr, Prod.mk.injEq, Except.ok.injEq] at hrun
        obtain ⟨hbd, -⟩ := hrun
        subst hbd
        have hheads := calc_branches_heads user emails repo_hash now
          repo.branches.items bd 0 0 0 0 [] bd0 (a', d', u', c') hnd h1
        have h2 := calc_branches_all_skipped user emails repo_hash now2
          repo.branches.items bd0 0 0 0 0 [] hheads
        simp [calc_repo_data, h2, herr]

/-- Witness for C4: the C5-scenario repository; after its first successful
reconciliation the second run returns zero deltas and the unchanged map. -/
theorem C4_unmoved_zero_deltas_witness :
    (repoC5.branches.err = none ∧
     (∀ br ∈ repoC5.branches.items,
        ((dictGet [(hash_branch "b" (hash_repo "R5"), (⟨some "h1", some "99"⟩ : BranchCP))]
            (hash_branch br.name (hash_repo "R5"))).bind (fun cp => cp.head)).getD ""
          = br.head_sha) ∧
     calc_repo_data userA emailsA repoC5 (hash_repo "R5")
         [(hash_branch "b" (hash_repo "R5"), ⟨some "h1", some "99"⟩)] 100 =
       ([(hash_branch "b" (hash_repo "R5"), ⟨some "h1", some "99"⟩)],
        .ok (0, 0, 0, 0, [(hash_branch "b" (hash_repo "R5"), ⟨some "h1", some "99"⟩)]))) ∧
    ((repoC5.branches.items.map (fun b => hash_branch b.name (hash_repo "R5"))).Nodup ∧
     calc_repo_data userA emailsA repoC5 (hash_repo "R5") bd5 99 =
       ([(hash_branch "b" (hash_repo "R5"), ⟨some "h1", some "99"⟩)],
        .ok (5, 1, 1, 1, [(hash_branch "b" (hash_repo "R5"), ⟨some "h1", some "99"⟩)])) ∧
     calc_repo_data userA emailsA repoC5 (hash_repo "R5")
         [(hash_branch "b" (hash_repo "R5"), ⟨some "h1", some "99"⟩)] 100 =
       ([(hash_branch "b" (hash_repo "R5"), ⟨some "h1", some "99"⟩)],
        .ok (0, 0, 0, 0, [(hash_branch "b" (hash_repo "R5"), ⟨some "h1", some "99"⟩)]))) :=
  ⟨⟨rfl, by decide,
    C4_unmoved_zero_deltas.1 userA emailsA repoC5 (hash_repo "R5")
      [(hash_branch "b" (hash_repo "R5"), ⟨some "h1", some "99"⟩)] 100 rfl (by decide)⟩,
   ⟨by decide, rfl,
    C4_unmoved_zero_deltas.2 userA emailsA repoC5 (hash_repo "R5") bd5 99 100 5 1 1 1
      [(hash_branch "b" (hash_repo "R5"), ⟨some "h1", some "99"⟩)] (by decide) rfl⟩⟩

theorem calc_branches_walked_entry (user : NamedUser) (emails : List String)
    (repo_hash : String) (now : Int) (brs : List RBranch) :
    ∀ (bd : BranchData) (a d u c : Int) (proc : List String) (bd' : BranchData)
      (r : Int × Int × Int × Int),
      (brs.map (fun b => hash_branch b.name repo_hash)).Nodup →
      calc_branches user emails repo_hash now brs bd a d u c proc = (bd', .ok r) →
      ∀ br ∈ brs,
        ¬(((dictGet bd (hash_branch br.name repo_hash)).bind (fun cp => cp.head)).getD ""
            = br.head_sha) →
        dictGet bd' (hash_branch br.name repo_hash)
          = some ⟨some br.head_sha, some (to_iso_z br.head_date now)⟩ := by
  induction brs with
  | nil =>
    intro bd a d u c proc bd' r _ _ br hbr _
    simp at hbr
  | cons b0 rest ih =>
    intro bd a d u c proc bd' r hnd hrun br hbr hwalk
    have hnd0 : hash_branch b0.name repo_hash ∉ rest.map (fun b => hash_branch b.name repo_hash) :=
      (List.nodup_cons.mp hnd).1
    have hndr : (rest.map (fun b => hash_branch b.name repo_hash)).Nodup :=
      (List.nodup_cons.mp hnd).2
    simp only [calc_branches] at hrun
    split at hrun
    · rename_i hskip
      rcases List.mem_cons.mp hbr with hbr | hbr
      · subst hbr
        exact absurd (eq_of_beq hskip) hwalk
      · exact ih bd a d u c proc bd' r hndr hrun br hbr hwalk
    · split at hrun
      · simp at hrun
      · split at hrun
        · simp at hrun
        · rcases List.mem_cons.mp hbr with hbr | hbr
          · subst hbr
            have hbd' := congrArg Prod.fst hrun
            dsimp only at hbd'
            rw [← hbd',
              calc_branches_preserves user emails repo_hash now rest
                (hash_branch br.name repo_hash) _ _ _ _ _ _ hnd0,
              dictGet_dictSet_self]
          · have hne : hash_branch br.name repo_hash ≠ hash_branch b0.name repo_hash := by
              intro hh
              exact hnd0 (hh ▸ List.mem_map_of_mem (fun b => hash_branch b.name repo_hash) hbr)
            have hwalk' : ¬(((dictGet (dictSet bd (hash_branch b0.name repo_hash)
                  ⟨some b0.head_sha, some (to_iso_z b0.head_date now)⟩)
                  (hash_branch br.name repo_hash)).bind (fun cp => cp.head)).getD ""
                = br.head_sha) := by
              rwa [dictGet_dictSet_ne _ _ _ _ hne]
            exact ih _ _ _ _ _ _ bd' r hndr hrun br hbr hwalk'

/-- C5 amended: after a successful reconciliation, every branch that was
actually walked (its current head differed from the cached checkpoint head)
has its recorded checkpoint equal to `head = the branch's current head SHA`
and `last_seen = to_iso_z` of the head commit's committer timestamp — which
is the serialized timestamp when it resolves and the serialized *current
time* (not the previous cached value) when it does not; the run itself
never fails over an unresolvable date. -/
theorem C5_checkpoint_after_walk (user : NamedUser) (emails : List String)
    (repo : RemoteRepo) (repo_hash : String) (bd : BranchData) (now a d u c : Int)
    (bd1 : BranchData)
    (hnd : (repo.branches.items.map (fun b => hash_branch b.name repo_hash)).Nodup)
    (hrun : calc_repo_data user emails repo repo_hash bd now = (bd1, .ok (a, d, u, c, bd1)))
    (br : RBranch) (hbr : br ∈ repo.branches.items)
    (hwalk : ¬(((dictGet bd (hash_branch br.name repo_hash)).bind (fun cp => cp.head)).getD ""
        = br.head_sha)) :
    dictGet bd1 (hash_branch br.name repo_hash)
      = some ⟨some br.head_sha, some (to_iso_z br.head_date now)⟩ := by
  rcases h1 : calc_branches user emails repo_hash now repo.branches.items bd 0 0 0 0 []
    with ⟨bd0, res⟩
  cases res with
  | error e => simp [calc_repo_data, h1] at hrun
  | ok q =>
    obtain ⟨a', d', u', c'⟩ := q
    cases herr : repo.branches.err with
    | some m => simp [calc_repo_data, h1, herr] at hrun
    | none =>
      simp only [calc_repo_data, h1, herr, Prod.mk.injEq, Except.ok.injEq] at hrun
      obtain ⟨hbd, -⟩ := hrun
      subst hbd
      exact calc_branches_walked_entry user emails repo_hash now repo.branches.items
        bd 0 0 0 0 [] bd0 (a', d', u', c') hnd h1 br hbr hwalk

/-- Witness for C5: the C5-scenario branch was walked (`h0 ≠ h1`) and its
unresolvable head date makes the recorded `last_seen` the serialized
current time `"99"`. -/
theorem C5_checkpoint_after_walk_witness :
    ((repoC5.branches.items.map (fun b => hash_branch b.name (hash_repo "R5"))).Nodup) ∧
    (calc_repo_data userA emailsA repoC5 (hash_repo "R5") bd5 99 =
      ([(hash_branch "b" (hash_repo "R5"), ⟨some "h1", some "99"⟩)],
       .ok (5, 1, 1, 1, [(hash_branch "b" (hash_repo "R5"), ⟨some "h1", some "99"⟩)]))) ∧
    (branchC5 ∈ repoC5.branches.items) ∧
    (¬(((dictGet bd5 (hash_branch branchC5.name (hash_repo "R5"))).bind
          (fun cp => cp.head)).getD "" = branchC5.head_sha)) ∧
    dictGet [(hash_branch "b" (hash_repo "R5"), (⟨some "h1", some "99"⟩ : BranchCP))]
        (hash_branch branchC5.name (hash_repo "R5"))
      = some ⟨some branchC5.head_sha, some (to_iso_z branchC5.head_date 99)⟩ :=
  ⟨by decide, rfl, List.mem_cons_self branchC5 [], by decide,
   C5_checkpoint_after_walk userA emailsA repoC5 (hash_repo "R5") bd5 99 5 1 1 1
     [(hash_branch "b" (hash_repo "R5"), ⟨some "h1", some "99"⟩)] (by decide) rfl
     branchC5 (List.mem_cons_self branchC5 []) (by decide)⟩

theorem walk_commits_spec (user : NamedUser) (emails : List String) (prev_head : String)
    (cs : List Commit) :
    ∀ (a d u c : Int) (proc : List String),
      ∃ S : List Commit,
        (∀ cm ∈ S, cm ∈ cs) ∧
        (S.map (fun cm => cm.sha)).Nodup ∧
        (∀ cm ∈ S, cm.sha ∉ proc) ∧
        walk_commits user emails prev_head cs a d u c proc =
          ⟨a + ((S.filter (fun cm => is_user_commit user emails cm)).map
              (fun cm => cm.additions)).sum,
           d + ((S.filter (fun cm => is_user_commit user emails cm)).map
              (fun cm => cm.deletions)).sum,
           u + (S.filter (fun cm => is_user_commit user emails cm)).length,
           c + S.length,
           (S.map (fun cm => cm.sha)).reverse ++ proc,
           (walk_commits user emails prev_head cs a d u c proc).broke⟩ := by
  induction cs with
  | nil =>
    intro a d u c proc
    exact ⟨[], by simp, by simp, by simp, by simp [walk_commits]⟩
  | cons cm rest ih =>
    intro a d u c proc
    by_cases hbrk : cm.sha = prev_head
    · refine ⟨[], by simp, by simp, by simp, ?_⟩
      simp [walk_commits, hbrk]
    · by_cases hdup : cm.sha ∈ proc
      · obtain ⟨S, hsub, hnd, hproc, heq⟩ := ih a d u c proc
        have hw : walk_commits user emails prev_head (cm :: rest) a d u c proc =
            walk_commits user emails prev_head rest a d u c proc := by
          simp [walk_commits, hbrk, hdup]
        refine ⟨S, fun x hx => List.mem_cons_of_mem _ (hsub x hx), hnd, hproc, ?_⟩
        rw [hw, heq]
      · have hnotS : ∀ S : List Commit, (∀ x ∈ S, x.sha ∉ cm.sha :: proc) →
            cm.sha ∉ S.map (fun x => x.sha) := by
          intro S hS hmem
          obtain ⟨x, hxS, hxsha⟩ := List.mem_map.mp hmem
          exact hS x hxS (hxsha ▸ List.mem_cons_self _ _)
        by_cases huser : is_user_commit user emails cm = true
        · obtain ⟨S, hsub, hnd, hproc, heq⟩ :=
            ih (a + cm.additions) (d + cm.deletions) (u + 1) (c + 1) (cm.sha :: proc)
          have hw : walk_commits user emails prev_head (cm :: rest) a d u c proc =
              walk_commits user emails prev_head rest (a + cm.additions) (d + cm.deletions)
                (u + 1) (c + 1) (cm.sha :: proc) := by
            simp [walk_commits, hbrk, hdup, huser]
          refine ⟨cm :: S, ?_, ?_, ?_, ?_⟩
          · intro x hx
            rcases List.mem_cons.mp hx with h | h
            · exact h ▸ List.mem_cons_self _ _
            · exact List.mem_cons_of_mem _ (hsub x h)
          · exact List.nodup_cons.mpr ⟨hnotS S hproc, hnd⟩
          · intro x hx
            rcases List.mem_cons.mp hx with h | h
            · exact h ▸ hdup
            · exact fun hm => hproc x h (List.mem_cons_of_mem _ hm)
          · rw [hw, heq]
            simp only [List.filter_cons, huser, if_pos, List.map_cons, List.sum_cons,
              List.length_cons, List.reverse_cons, List.append_assoc, List.singleton_append,
              WalkResult.mk.injEq]
            push_cast
            repeat' apply And.intro
            all_goals first | rfl | ring
        · rw [Bool.not_eq_true] at huser
          obtain ⟨S, hsub, hnd, hproc, heq⟩ :=
            ih a d u (c + 1) (cm.sha :: proc)
          have hw : walk_commits user emails prev_head (cm :: rest) a d u c proc =
              walk_commits user emails prev_head rest a d u (c + 1) (cm.sha :: proc) := by
            simp [walk_commits, hbrk, hdup, huser]
          refine ⟨cm :: S, ?_, ?_, ?_, ?_⟩
          · intro x hx
            rcases List.mem_cons.mp hx with h | h
            · exact h ▸ List.mem_cons_self _ _
            · exact List.mem_cons_of_mem _ (hsub x h)
          · exact List.nodup_cons.mpr ⟨hnotS S hproc, hnd⟩
          · intro x hx
            rcases List.mem_cons.mp hx with h | h
            · exact h ▸ hdup
            · exact fun hm => hproc x h (List.mem_cons_of_mem _ hm)
          · rw [hw, heq]
            simp only [List.filter_cons, huser, List.map_cons, List.sum_cons,
              List.length_cons, List.reverse_cons, List.append_assoc, List.singleton_append,
              WalkResult.mk.injEq]
            push_cast
            repeat' apply And.intro
            all_goals first | rfl | ring

theorem calc_branches_spec (user : NamedUser) (emails : List String)
    (repo_hash : String) (now : Int) (brs : List RBranch) :
    ∀ (bd : BranchData) (a d u c : Int) (proc : List String) (bd' : BranchData)
      (r : Int × Int × Int × Int),
      calc_branches user emails repo_hash now brs bd a d u c proc = (bd', .ok r) →
      ∃ S : List Commit,
        (∀ cm ∈ S, ∃ br ∈ brs, ∃ t : Option Int, cm ∈ (br.history t).items) ∧
        (S.map (fun cm => cm.sha)).Nodup ∧
        (∀ cm ∈ S, cm.sha ∉ proc) ∧
        r = (a + ((S.filter (fun cm => is_user_commit user emails cm)).map
              (fun cm => cm.additions)).sum,
             d + ((S.filter (fun cm => is_user_commit user emails cm)).map
              (fun cm => cm.deletions)).sum,
             u + (S.filter (fun cm => is_user_commit user emails cm)).length,
             c + S.length) := by
  induction brs with
  | nil =>
    intro bd a d u c proc bd' r hrun
    simp only [calc_branches, Prod.mk.injEq, Except.ok.injEq] at hrun
    exact ⟨[], by simp, by simp, by simp, by simp [← hrun.2]⟩
  | cons b0 rest ih =>
    intro bd a d u c proc bd' r hrun
    simp only [calc_branches] at hrun
    split at hrun
    · obtain ⟨S, hprov, hnd, hproc, hr⟩ := ih bd a d u c proc bd' r hrun
      refine ⟨S, ?_, hnd, hproc, hr⟩
      intro cm hcm
      obtain ⟨br, hbr, t, ht⟩ := hprov cm hcm
      exact ⟨br, List.mem_cons_of_mem _ hbr, t, ht⟩
    · split at hrun
      · simp at hrun
      · rename_i since heqsince
        split at hrun
        · simp at hrun
        · obtain ⟨S0, hsub0, hnd0, hproc0, heq0⟩ :=
            walk_commits_spec user emails
              (((dictGet bd (hash_branch b0.name repo_hash)).bind (fun cp => cp.head)).getD "")
              (b0.history since).items a d u c proc
          rw [heq0] at hrun
          dsimp only at hrun
          obtain ⟨S1, hprov1, hnd1, hproc1, hr⟩ := ih _ _ _ _ _ _ bd' r hrun
          refine ⟨S0 ++ S1, ?_, ?_, ?_, ?_⟩
          · intro cm hcm
            rcases List.mem_append.mp hcm with h | h
            · exact ⟨b0, List.mem_cons_self _ _, since, hsub0 cm h⟩
            · obtain ⟨br, hbr, t, ht⟩ := hprov1 cm h
              exact ⟨br, List.mem_cons_of_mem _ hbr, t, ht⟩
          · rw [List.map_append]
            refine List.nodup_append.mpr ⟨hnd0, hnd1, ?_⟩
            intro x hx0 hx1
            obtain ⟨y, hyS1, hy⟩ := List.mem_map.mp hx1
            exact hproc1 y hyS1
              (List.mem_append.mpr (Or.inl (List.mem_reverse.mpr (hy ▸ hx0))))
          · intro cm hcm
            rcases List.mem_append.mp hcm with h | h
            · exact hproc0 cm h
            · exact fun hm => hproc1 cm h (List.mem_append.mpr (Or.inr hm))
          · rw [hr]
            simp only [List.filter_append, List.map_append, List.sum_append,
              List.length_append, Prod.mk.injEq]
            push_cast
            repeat' apply And.intro
            all_goals ring

/-- C2: whenever reconciliation of a repository succeeds, its four deltas
are generated by a single list `S` of commits with pairwise-distinct SHAs,
each drawn from some branch's fetched history: the total-commit delta is
`|S|`, and the addition/deletion/authored-commit deltas are the sums over
the user-authored members of `S` — so a commit id reachable from several
branches contributes at most once to the totals and at most once to the
authored deltas. -/
theorem C2_no_double_count (user : NamedUser) (emails : List String) (repo : RemoteRepo)
    (repo_hash : String) (branches : BranchData) (now a d u c : Int) (bd2 : BranchData)
    (hrun : (calc_repo_data user emails repo repo_hash branches now).2 = .ok (a, d, u, c, bd2)) :
    ∃ S : List Commit,
      (∀ cm ∈ S, ∃ br ∈ repo.branches.items, ∃ t : Option Int, cm ∈ (br.history t).items) ∧
      (S.map (fun cm => cm.sha)).Nodup ∧
      a = ((S.filter (fun cm => is_user_commit user emails cm)).map
          (fun cm => cm.additions)).sum ∧
      d = ((S.filter (fun cm => is_user_commit user emails cm)).map
          (fun cm => cm.deletions)).sum ∧
      u = (S.filter (fun cm => is_user_commit user emails cm)).length ∧
      c = S.length := by
  rcases h1 : calc_branches user emails repo_hash now repo.branches.items branches 0 0 0 0 []
    with ⟨bd0, res⟩
  cases res with
  | error e => simp [calc_repo_data, h1] at hrun
  | ok q =>
    obtain ⟨a', d', u', c'⟩ := q
    cases herr : repo.branches.err with
    | some m => simp [calc_repo_data, h1, herr] at hrun
    | none =>
      simp only [calc_repo_data, h1, herr, Except.ok.injEq, Prod.mk.injEq] at hrun
      obtain ⟨ha, hd, hu, hc, -⟩ := hrun
      obtain ⟨S, hprov, hnd, -, hr⟩ := calc_branches_spec user emails repo_hash now
        repo.branches.items branches 0 0 0 0 [] bd0 (a', d', u', c') h1
      simp only [Prod.mk.injEq, zero_add] at hr
      obtain ⟨ha2, hd2, hu2, hc2⟩ := hr
      exact ⟨S, hprov, hnd, ha ▸ ha2, hd ▸ hd2, hu ▸ hu2, hc ▸ hc2⟩

/-- Witness for C2: a repository with two branches sharing the commit
`shared`; reconciling from an empty cache counts `shared` once, giving
deltas `(13, 2, 3, 3)` generated by a duplicate-free commit list. -/
theorem C2_no_double_count_witness :
    ((calc_repo_data userA emailsA
        ⟨"R2", ⟨[⟨"bx", "x1", some 3,
                  fun _ => ⟨[mkCommit "x1" 1 0, mkCommit "shared" 10 2], none⟩⟩,
                 ⟨"b2y", "y1", some 4,
                  fun _ => ⟨[mkCommit "y1" 2 0, mkCommit "shared" 10 2], none⟩⟩], none⟩⟩
        (hash_repo "R2") [] 50).2 =
      .ok (13, 2, 3, 3,
        [(hash_branch "bx" (hash_repo "R2"), ⟨some "x1", some "3"⟩),
         (hash_branch "b2y" (hash_repo "R2"), ⟨some "y1", some "4"⟩)])) ∧
    (∃ S : List Commit,
      (∀ cm ∈ S, ∃ br ∈ (⟨"R2", ⟨[⟨"bx", "x1", some 3,
                  fun _ => ⟨[mkCommit "x1" 1 0, mkCommit "shared" 10 2], none⟩⟩,
                 ⟨"b2y", "y1", some 4,
                  fun _ => ⟨[mkCommit "y1" 2 0, mkCommit "shared" 10 2], none⟩⟩],
                 none⟩⟩ : RemoteRepo).branches.items,
         ∃ t : Option Int, cm ∈ (br.history t).items) ∧
      (S.map (fun cm => cm.sha)).Nodup ∧
      (13 : Int) = ((S.filter (fun cm => is_user_commit userA emailsA cm)).map
          (fun cm => cm.additions)).sum ∧
      (2 : Int) = ((S.filter (fun cm => is_user_commit userA emailsA cm)).map
          (fun cm => cm.deletions)).sum ∧
      (3 : Int) = (S.filter (fun cm => is_user_commit userA emailsA cm)).length ∧
      (3 : Int) = S.length) :=
  ⟨rfl,
   C2_no_double_count userA emailsA
     ⟨"R2", ⟨[⟨"bx", "x1", some 3,
               fun _ => ⟨[mkCommit "x1" 1 0, mkCommit "shared" 10 2], none⟩⟩,
              ⟨"b2y", "y1", some 4,
               fun _ => ⟨[mkCommit "y1" 2 0, mkCommit "shared" 10 2], none⟩⟩], none⟩⟩
     (hash_repo "R2") [] 50 13 2 3 3
     [(hash_branch "bx" (hash_repo "R2"), ⟨some "x1", some "3"⟩),
      (hash_branch "b2y" (hash_repo "R2"), ⟨some "y1", some "4"⟩)] rfl⟩
